import Mathlib

/-!
Verification of the `paper_watcher` pipeline, a shallow embedding of
`src/paper_watcher.py`.

Modelling conventions:
* Python strings are Lean `String`s; where character-level reasoning is
  needed we work on `String.data : List Char`.
* Python `list` is `List`, a Python `dict` is an insertion-ordered
  association list (`List (key × value)`); assignment to an existing key
  overwrites in place, a new key is appended — exactly CPython semantics.
* External effects (HTTP responses, the wall clock, the file system) are
  explicit oracle parameters; `time.sleep` calls are recorded in a log
  where a claim talks about them.
* Fallible code returns `Option`; a Python exception escaping a function
  is an explicit error value.
-/

namespace PaperWatcher

/-- Whitespace as recognised by Python `str.strip()` / `str.split()`
(ASCII part: space, tab, newline, carriage return, vertical tab, form feed). -/
def pySpace (c : Char) : Bool :=
  c == ' ' || c == '\t' || c == '\n' || c == '\r' || c == '\x0b' || c == '\x0c'

/-- Python `line.strip()`: drop whitespace from both ends. -/
def stripC (l : List Char) : List Char :=
  ((l.dropWhile pySpace).reverse.dropWhile pySpace).reverse

/-- Python `content.split('\n')`: split a character list at newlines.
`splitLinesC [] = [[]]` because `"".split('\n') == ['']`. -/
def splitLinesC : List Char → List (List Char)
  | [] => [[]]
  | c :: cs =>
    if c = '\n' then [] :: splitLinesC cs
    else
      match splitLinesC cs with
      | [] => [[c]]
      | l :: ls => (c :: l) :: ls

/-- Python `'\n'.join(lines)`. -/
def joinLinesC : List (List Char) → List Char
  | [] => []
  | [l] => l
  | l :: l' :: ls => l ++ '\n' :: joinLinesC (l' :: ls)

/-- Python `s.rstrip(chars)` generalised to a character predicate:
drop matching characters from the right end. -/
def rstripP (p : Char → Bool) (l : List Char) : List Char :=
  (l.reverse.dropWhile p).reverse

/-- The character set `.,;:` of `find_urls_in_text`'s `url.rstrip('.,;:')`. -/
def punctSet (c : Char) : Bool :=
  c == '.' || c == ',' || c == ';' || c == ':'

/-- Case-insensitive literal match, as under `re.IGNORECASE`: consume
`pat` (compared via `Char.toLower`) from the front of `s` and return the
rest. -/
def litMatchCI : List Char → List Char → Option (List Char)
  | [], s => some s
  | _ :: _, [] => none
  | p :: ps, c :: cs => if p.toLower = c.toLower then litMatchCI ps cs else none

/-- Case-sensitive literal match, returning the rest of the string. -/
def litMatchCS : List Char → List Char → Option (List Char)
  | [], s => some s
  | _ :: _, [] => none
  | p :: ps, c :: cs => if p = c then litMatchCS ps cs else none

/-- Regex `\d{n}`: exactly `n` digits, returning them and the rest. -/
def takeExactDigits : Nat → List Char → Option (List Char × List Char)
  | 0, s => some ([], s)
  | _ + 1, [] => none
  | n + 1, c :: cs =>
    if c.isDigit then (takeExactDigits n cs).map (fun p => (c :: p.1, p.2))
    else none

/-- Regex `(?:v\d+)?` (greedy, case-insensitive): the matched version
suffix, or `[]` when absent. -/
def matchVer : List Char → List Char
  | [] => []
  | c :: rest =>
    if c.toLower = 'v' then
      let ds := rest.takeWhile Char.isDigit
      if ds.isEmpty then [] else c :: ds
    else []

/-- Regex `\d{4}\.\d{4,5}(?:v\d+)?` anchored at the front of `s`: the
captured new-style arXiv identifier (the `{4,5}` part is greedy). -/
def matchNewId (s : List Char) : Option (List Char) :=
  match takeExactDigits 4 s with
  | none => none
  | some (a, r1) =>
    match r1 with
    | '.' :: r2 =>
      match takeExactDigits 4 r2 with
      | none => none
      | some (b, r3) =>
        match r3 with
        | c :: r4 =>
          if c.isDigit then some (a ++ '.' :: (b ++ [c]) ++ matchVer r4)
          else some (a ++ '.' :: b ++ matchVer r3)
        | [] => some (a ++ '.' :: b ++ matchVer r3)
    | _ => none

/-- Character class `[a-z-]` under `re.IGNORECASE`. -/
def catChar (c : Char) : Bool :=
  (decide ('a' ≤ c.toLower) && decide (c.toLower ≤ 'z')) || c == '-'

/-- Regex `[a-z-]+/\d{7}` (case-insensitive) anchored at the front: the
captured old-style arXiv identifier. -/
def matchOldId (s : List Char) : Option (List Char) :=
  let cat := s.takeWhile catChar
  let r1 := s.dropWhile catChar
  if cat.isEmpty then none
  else
    match r1 with
    | '/' :: r2 => (takeExactDigits 7 r2).map (fun p => cat ++ '/' :: p.1)
    | _ => none

/-- Semantics of `re.search`: try the anchored matcher at every position,
leftmost first. -/
def searchAux (m : List Char → Option (List Char)) : List Char → Option (List Char)
  | [] => m []
  | c :: t =>
    match m (c :: t) with
    | some g => some g
    | none => searchAux m t

/-- One arXiv URL pattern: the literal prefix (`arxiv.org/abs/` or
`arxiv.org/pdf/`) followed by an identifier matcher; returns the captured
group. -/
def arxivPat (pref : String) (idm : List Char → Option (List Char))
    (s : List Char) : Option (List Char) :=
  (litMatchCI pref.data s).bind idm

namespace URLParser

/-- Translation of `URLParser.extract_arxiv_id`: try the four
`ARXIV_PATTERNS` in order with `re.search` semantics, then apply
`arxiv_id.split('v')[0] if 'v' in arxiv_id else arxiv_id` to the group. -/
def extract_arxiv_id (url : String) : Option String :=
  let s := url.data
  let g :=
    (searchAux (arxivPat "arxiv.org/abs/" matchNewId) s).orElse (fun _ =>
    (searchAux (arxivPat "arxiv.org/pdf/" matchNewId) s).orElse (fun _ =>
    (searchAux (arxivPat "arxiv.org/abs/" matchOldId) s).orElse (fun _ =>
    searchAux (arxivPat "arxiv.org/pdf/" matchOldId) s)))
  g.map (fun g0 =>
    String.mk (if g0.contains 'v' then g0.takeWhile (fun c => c != 'v') else g0))

/-- Character class `[^\s\)]` of the DOI patterns (regex `\s` has the
same ASCII members as `pySpace`). -/
def doiBodyChar (c : Char) : Bool := !(pySpace c) && c != ')'

/-- Regex `10\.\d{4,}/[^\s\)]+` anchored at the front: the captured DOI
group shared by both `DOI_PATTERNS`. -/
def matchDoiCore (s : List Char) : Option (List Char) :=
  match litMatchCI "10.".data s with
  | none => none
  | some r1 =>
    let ds := r1.takeWhile Char.isDigit
    let r2 := r1.dropWhile Char.isDigit
    if ds.length < 4 then none
    else
      match r2 with
      | '/' :: r3 =>
        let body := r3.takeWhile doiBodyChar
        if body.isEmpty then none
        else some ('1' :: '0' :: '.' :: ds ++ '/' :: body)
      | _ => none

/-- Translation of `URLParser.extract_doi`: the two `DOI_PATTERNS` in
order (`doi\.org/(...)` then `doi:\s*(...)`), then `.rstrip('.')` on the
captured group. -/
def extract_doi (url : String) : Option String :=
  let s := url.data
  let g :=
    (searchAux (fun t => (litMatchCI "doi.org/".data t).bind matchDoiCore) s).orElse
      (fun _ => searchAux (fun t =>
        ((litMatchCI "doi:".data t).map (List.dropWhile pySpace)).bind matchDoiCore) s)
  g.map (fun g0 => String.mk (rstripP (fun c => c == '.') g0))

/-- Character class `[^\s\)\]<>\"\']` of the URL-finding pattern (the
second alternative's class lists `"` twice but denotes the same set). -/
def urlChar (c : Char) : Bool :=
  !(pySpace c) && c != ')' && c != ']' && c != '<' && c != '>' && c != '"' && c != '\''

/-- Suffix `://[^\s\)\]<>\"\']+` of the first URL alternative: the
literal `://` plus a nonempty greedy run of URL characters. -/
def httpTail (s : List Char) : Option (List Char × List Char) :=
  match litMatchCS "://".data s with
  | none => none
  | some r1 =>
    let body := r1.takeWhile urlChar
    let rest := r1.dropWhile urlChar
    if body.isEmpty then none
    else some (':' :: '/' :: '/' :: body, rest)

/-- First alternative `https?://[^\s\)\]<>\"\']+` of the URL pattern,
anchored at the front; returns (matched text, rest). The optional `s?` is
greedy with backtracking. -/
def matchAlt1 (s : List Char) : Option (List Char × List Char) :=
  match litMatchCS "http".data s with
  | none => none
  | some r1 =>
    match r1 with
    | 's' :: r2 =>
      match httpTail r2 with
      | some p => some ('h' :: 't' :: 't' :: 'p' :: 's' :: p.1, p.2)
      | none => (httpTail r1).map (fun p => ('h' :: 't' :: 't' :: 'p' :: p.1, p.2))
    | _ => (httpTail r1).map (fun p => ('h' :: 't' :: 't' :: 'p' :: p.1, p.2))

/-- Second alternative `doi:\s*10\.\d{4,}/[^\s\)\]<>\"\'"]+`, anchored at
the front; returns (matched text, rest). -/
def matchAlt2 (s : List Char) : Option (List Char × List Char) :=
  match litMatchCS "doi:".data s with
  | none => none
  | some r1 =>
    let sp := r1.takeWhile pySpace
    let r2 := r1.dropWhile pySpace
    match litMatchCS "10.".data r2 with
    | none => none
    | some r3 =>
      let ds := r3.takeWhile Char.isDigit
      let r4 := r3.dropWhile Char.isDigit
      if ds.length < 4 then none
      else
        match r4 with
        | '/' :: r5 =>
          let body := r5.takeWhile urlChar
          let rest := r5.dropWhile urlChar
          if body.isEmpty then none
          else
            some ('d' :: 'o' :: 'i' :: ':' ::
              (sp ++ '1' :: '0' :: '.' :: (ds ++ '/' :: body)), rest)
        | _ => none

/-- One step of `re.findall` on the URL pattern: the alternation anchored
at the current position, first alternative preferred (Python semantics). -/
def tryMatchUrl (s : List Char) : Option (List Char × List Char) :=
  match matchAlt1 s with
  | some r => some r
  | none => matchAlt2 s

/-- Fuelled `re.findall` scan: at each position try the pattern; on a
match emit it and continue after the consumed text, otherwise advance one
character. Fuel `s.length` suffices since a step consumes a character. -/
def findAllUrlsFuel : Nat → List Char → List (List Char)
  | 0, _ => []
  | fuel + 1, s =>
    match tryMatchUrl s with
    | some (m, rest) => m :: findAllUrlsFuel fuel rest
    | none =>
      match s with
      | [] => []
      | _ :: t => findAllUrlsFuel fuel t

/-- Position-tracking variant of the scan, used to state that matches
come in order of first appearance. -/
def findAllUrlsPosFuel : Nat → Nat → List Char → List (Nat × List Char)
  | 0, _, _ => []
  | fuel + 1, i, s =>
    match tryMatchUrl s with
    | some (m, rest) => (i, m) :: findAllUrlsPosFuel fuel (i + m.length) rest
    | none =>
      match s with
      | [] => []
      | _ :: t => findAllUrlsPosFuel fuel (i + 1) t

/-- Translation of `URLParser.find_urls_in_text`: `re.findall` with the
URL pattern, then `url.rstrip('.,;:')` on each match. -/
def find_urls_in_text (text : String) : List String :=
  (findAllUrlsFuel text.data.length text.data).map
    (fun m => String.mk (rstripP punctSet m))

end URLParser

/-- Python `sep.join(xs)`. -/
def joinSep (sep : String) : List String → String
  | [] => ""
  | [x] => x
  | x :: y :: xs => x ++ sep ++ joinSep sep (y :: xs)

/-- The `PaperInfo` dataclass. -/
structure PaperInfo where
  title : String
  authors : List String
  venue : String
  year : String
  arxiv_id : Option String
  doi : Option String
  pdf_url : Option String
  citations : Option Int
deriving DecidableEq, Repr

/-- Translation of `PaperInfo.format_authors` (at the default
`max_authors = 3`): all authors when at most 3, else the first three
followed by `et al.`. -/
def PaperInfo.format_authors (p : PaperInfo) : String :=
  if p.authors.length ≤ 3 then joinSep ", " p.authors
  else joinSep ", " (p.authors.take 3) ++ " et al."

/-- Translation of `PaperInfo.to_markdown`: header, then the optional
link fragments gathered into `links` and joined space-separated in
parentheses, then the citation count (N/A when absent). -/
def PaperInfo.to_markdown (p : PaperInfo) (local_pdf_path : Option String) : String :=
  let result := "**" ++ p.title ++ "**. " ++ p.format_authors ++ ". "
    ++ p.venue ++ ", " ++ p.year
  let links : List String :=
    (match local_pdf_path with
     | some pth => ["[PDF](" ++ pth ++ ")"]
     | none => []) ++
    (match p.arxiv_id with
     | some a => ["[arXiv](https://arxiv.org/abs/" ++ a ++ ")"]
     | none => []) ++
    (match p.doi with
     | some d => ["[DOI](https://doi.org/" ++ d ++ ")"]
     | none => [])
  let citation_str : String :=
    match p.citations with
    | some n => "Citations: " ++ toString n
    | none => "Citations: N/A"
  let result2 :=
    match links with
    | [] => result
    | l :: ls => result ++ " " ++ joinSep " " ((l :: ls).map (fun x => "(" ++ x ++ ")"))
  result2 ++ " (" ++ citation_str ++ ")"

/-- The citation format as the specification phrases it: the
title/authors/venue/year header, then individually parenthesized link
fragments in the fixed order (PDF), (arXiv), (DOI) — each included
exactly when its datum exists, each preceded by one space — then one
trailing `(Citations: N)` (also for N = 0) or `(Citations: N/A)`. -/
def citationSpecFormat (p : PaperInfo) (local_pdf_path : Option String) : String :=
  ("**" ++ p.title ++ "**. " ++ p.format_authors ++ ". " ++ p.venue ++ ", " ++ p.year)
  ++ (match local_pdf_path with
      | some pth => " " ++ ("(" ++ ("[PDF](" ++ pth ++ ")") ++ ")")
      | none => "")
  ++ (match p.arxiv_id with
      | some a => " " ++ ("(" ++ ("[arXiv](https://arxiv.org/abs/" ++ a ++ ")") ++ ")")
      | none => "")
  ++ (match p.doi with
      | some d => " " ++ ("(" ++ ("[DOI](https://doi.org/" ++ d ++ ")") ++ ")")
      | none => "")
  ++ " (" ++ (match p.citations with
      | some n => "Citations: " ++ toString n
      | none => "Citations: N/A") ++ ")"

/-- One attempt of `requests.get` inside `_request_with_retry`:
either a response with a status code and (parsed JSON) body, or a raised
exception (timeout, connection error, ...). -/
inductive HttpAttempt (α : Type) where
  | resp (status : Nat) (body : α)
  | exn
deriving DecidableEq, Repr

/-- Observable outcome of `SemanticScholarAPI._request_with_retry`:
the returned value, the log of `time.sleep` durations (seconds, in
order), and how many attempts were made. -/
structure RetryResult (α : Type) where
  result : Option α
  sleeps : List Nat
  attempts : Nat
deriving DecidableEq, Repr

/-- Translation of the retry loop body of
`SemanticScholarAPI._request_with_retry`, recursing on the remaining
iterations of `for attempt in range(max_retries)`:
status 200 returns the body; status 429 sleeps `(attempt+1)*3` seconds
and retries; any other status returns `None` at once; an exception sleeps
2 seconds and retries unless this was the last attempt. -/
def retryAux {α : Type} (responses : Nat → HttpAttempt α) (max_retries : Nat) :
    Nat → Nat → RetryResult α
  | 0, attempt => ⟨none, [], attempt⟩
  | fuel + 1, attempt =>
    match responses attempt with
    | .resp status body =>
      if status = 200 then ⟨some body, [], attempt + 1⟩
      else if status = 429 then
        let r := retryAux responses max_retries fuel (attempt + 1)
        ⟨r.result, (attempt + 1) * 3 :: r.sleeps, r.attempts⟩
      else ⟨none, [], attempt + 1⟩
    | .exn =>
      if attempt < max_retries - 1 then
        let r := retryAux responses max_retries fuel (attempt + 1)
        ⟨r.result, 2 :: r.sleeps, r.attempts⟩
      else ⟨none, [], attempt + 1⟩

/-- Translation of `SemanticScholarAPI._request_with_retry` (the source
calls it with the default `max_retries = 3`). -/
def request_with_retry {α : Type} (responses : Nat → HttpAttempt α)
    (max_retries : Nat) : RetryResult α :=
  retryAux responses max_retries max_retries 0

/-- The `paper_info` snapshot stored by `mark_url_processed`: the caller
passes `{"title": ..., "arxiv_id": ...}` for arXiv links and
`{"doi": ...}` for DOI links. -/
inductive Snapshot where
  | arxivSnap (title : String) (arxiv_id : String)
  | doiSnap (doi : String)
deriving DecidableEq, Repr

/-- One value of the `processed_urls` dict: the `processed_at` timestamp
(`datetime.now().isoformat()`, modelled as a Nat supplied by the clock
oracle) and the info snapshot. -/
structure Entry where
  processed_at : Nat
  info : Snapshot
deriving DecidableEq, Repr

/-- CPython dict assignment `m[k] = v` on an insertion-ordered
association list: an existing key is overwritten in place, a new key is
appended at the end. -/
def dictInsert {α : Type} (m : List (String × α)) (k : String) (v : α) :
    List (String × α) :=
  if m.any (fun p => p.1 == k) then
    m.map (fun p => if p.1 == k then (k, v) else p)
  else m ++ [(k, v)]

/-- Python `k in m` for the association-list dict. -/
def dictMem {α : Type} (m : List (String × α)) (k : String) : Bool :=
  m.any (fun p => p.1 == k)

/-- Python `m.get(k)` for the association-list dict. -/
def dictLookup {α : Type} (m : List (String × α)) (k : String) : Option α :=
  (m.find? (fun p => p.1 == k)).map Prod.snd

namespace StateManager

/-- Translation of `StateManager.is_url_processed`:
`url in self.state["processed_urls"]`. -/
def is_url_processed (m : List (String × Entry)) (url : String) : Bool :=
  dictMem m url

/-- Translation of `StateManager.mark_url_processed`: unconditionally
assigns `{"processed_at": now, "info": info}` to `processed_urls[url]`
(then flushes the whole state file, which has no in-memory effect). The
wall-clock reading `datetime.now()` is the explicit argument `now`. -/
def mark_url_processed (m : List (String × Entry)) (url : String)
    (info : Snapshot) (now : Nat) : List (String × Entry) :=
  dictInsert m url ⟨now, info⟩

end StateManager

/-- Outcome of one PDF download attempt as seen inside
`PDFDownloader.download`: success, an HTTP error status (raised by
`raise_for_status`), or a transport-level exception. -/
inductive DlOutcome where
  | ok
  | httpError (code : Nat)
  | transportError
deriving DecidableEq, Repr

namespace PDFDownloader

/-- Translation of `PDFDownloader.download`: the whole body is wrapped
in `try/except Exception`, so every non-success outcome is caught and
reported as `False`; only a fully streamed download returns `True`. -/
def download (outcome : DlOutcome) : Bool :=
  match outcome with
  | .ok => true
  | .httpError _ => false
  | .transportError => false

/-- Python `author.split()` (split on whitespace runs, no empty parts),
fuelled structurally; fuel `l.length` suffices. -/
def splitWsFuel : Nat → List Char → List (List Char)
  | 0, _ => []
  | _ + 1, [] => []
  | fuel + 1, c :: cs =>
    if pySpace c then splitWsFuel fuel cs
    else
      ((c :: cs).takeWhile (fun x => !pySpace x))
        :: splitWsFuel fuel ((c :: cs).dropWhile (fun x => !pySpace x))

/-- Characters removed from the title by `re.sub(r'[<>:"/\\|?*]', '', title)`. -/
def unsafeChar (c : Char) : Bool :=
  c == '<' || c == '>' || c == ':' || c == '"' || c == '/' ||
  c == '\\' || c == '|' || c == '?' || c == '*'

/-- Translation of `PDFDownloader.generate_filename`: sanitize and cap
the title, take the last whitespace-separated word of the first author
(`authors[0].split()[-1]`, an `IndexError` — modelled as `none` — when
that split is empty), and assemble `first_author_year_title.pdf`. -/
def generate_filename (p : PaperInfo) : Option String :=
  let title := String.mk ((p.title.data.filter (fun c => !unsafeChar c)).take 80)
  match p.authors with
  | [] => some ("Unknown" ++ "_" ++ p.year ++ "_" ++ title ++ ".pdf")
  | a :: _ =>
    match (splitWsFuel a.data.length a.data).getLast? with
    | none => none
    | some w => some (String.mk w ++ "_" ++ p.year ++ "_" ++ title ++ ".pdf")

end PDFDownloader

/-- The external collaborators of one `process_file` run: the two
metadata services (already parsed into `Option PaperInfo` /
`Option Int`), the PDF transfer outcome per source URL, the
`os.path.relpath` computation, and the wall clock indexed by how many
state writes have happened. -/
structure Oracle where
  ssFull : String → Option PaperInfo
  arxivApi : String → Option PaperInfo
  ssCitations : String → Option Int
  downloadOutcome : Option String → DlOutcome
  relpath : String → String → String
  now : Nat → Nat

namespace MarkdownProcessor

/-- Translation of `MarkdownProcessor._process_arxiv`: Semantic Scholar
first, then the arXiv API fallback; when the record still has no citation
count, one dedicated `get_citations` call back-fills it if it succeeds. -/
def process_arxiv (o : Oracle) (arxiv_id : String) : Option PaperInfo :=
  let paper_info :=
    match o.ssFull arxiv_id with
    | some x => some x
    | none => o.arxivApi arxiv_id
  match paper_info with
  | none => none
  | some info =>
    if info.citations = none then
      match o.ssCitations arxiv_id with
      | some c => some { info with citations := some c }
      | none => some info
    else some info

/-- Mutable state threaded through one `process_file` run: the
`processed_urls` dict and a count of state writes (used to index the
clock oracle, since each write reads `datetime.now()`). -/
structure RunState where
  processed : List (String × Entry)
  tick : Nat
deriving DecidableEq, Repr

/-- Result of a `process_file` run: the returned list of
`(original URL, PaperInfo, local PDF path or None)` triples, or the
plain-Python exception escaping the loop (which loses the local
`results` but keeps the already-written state). -/
inductive RunResult where
  | ok (results : List (String × PaperInfo × Option String)) (st : RunState)
  | err (st : RunState)
deriving Repr

/-- State visible after a run, for both normal and exceptional exit. -/
def stateOf : RunResult → RunState
  | .ok _ st => st
  | .err st => st

/-- Results of a run; an escaped exception loses them. -/
def resultsOf : RunResult → List (String × PaperInfo × Option String)
  | .ok rs _ => rs
  | .err _ => []

/-- Translation of the `for url in urls` loop of
`MarkdownProcessor.process_file`. Per URL: skip if already processed;
else if an arXiv id is extracted, resolve it (a failure skips the URL
without marking), generate the file name (its `IndexError` escapes),
download (a failure leaves the local path `None`), append the result
triple and mark the URL processed; else if a DOI is extracted, only mark
the URL processed; else ignore the URL. -/
def processFileLoop (o : Oracle) (pdf_dir filepath : String) :
    List String → RunState → RunResult
  | [], st => .ok [] st
  | url :: rest, st =>
    if StateManager.is_url_processed st.processed url then
      processFileLoop o pdf_dir filepath rest st
    else
      match URLParser.extract_arxiv_id url with
      | some arxiv_id =>
        match process_arxiv o arxiv_id with
        | some info =>
          match PDFDownloader.generate_filename info with
          | none => .err st
          | some pdf_filename =>
            let pdf_path := pdf_dir ++ "/" ++ pdf_filename
            let rel : Option String :=
              if PDFDownloader.download (o.downloadOutcome info.pdf_url) then
                some (o.relpath pdf_path filepath)
              else none
            let st' : RunState :=
              ⟨StateManager.mark_url_processed st.processed url
                (.arxivSnap info.title arxiv_id) (o.now st.tick), st.tick + 1⟩
            match processFileLoop o pdf_dir filepath rest st' with
            | .ok rs stF => .ok ((url, info, rel) :: rs) stF
            | .err stF => .err stF
        | none => processFileLoop o pdf_dir filepath rest st
      | none =>
        match URLParser.extract_doi url with
        | some doi =>
          let st' : RunState :=
            ⟨StateManager.mark_url_processed st.processed url
              (.doiSnap doi) (o.now st.tick), st.tick + 1⟩
          processFileLoop o pdf_dir filepath rest st'
        | none => processFileLoop o pdf_dir filepath rest st

/-- Translation of `MarkdownProcessor.process_file` on the note's text
(file I/O modelled away): find the URLs, then run the loop. -/
def process_file (o : Oracle) (pdf_dir filepath content : String)
    (st : RunState) : RunResult :=
  processFileLoop o pdf_dir filepath (URLParser.find_urls_in_text content) st

/-- Lines-level core of `update_file_with_formatted_refs` for a single
triple: after every line whose `strip()` equals the URL, append an empty
line and the formatted citation. -/
def insertRefsC (url fmt : List Char) : List (List Char) → List (List Char)
  | [] => []
  | line :: rest =>
    if stripC line = url then line :: [] :: fmt :: insertRefsC url fmt rest
    else line :: insertRefsC url fmt rest

/-- Translation of `MarkdownProcessor.update_file_with_formatted_refs`
on the note's text: for each result triple in order, split the current
content at newlines, insert a blank line and the `to_markdown` citation
after every line equal (after strip) to the triple's URL, and join. -/
def update_file_with_formatted_refs (content : String)
    (results : List (String × PaperInfo × Option String)) : String :=
  results.foldl
    (fun c r =>
      String.mk (joinLinesC (insertRefsC r.1.data
        ((r.2.1.to_markdown r.2.2).data) (splitLinesC c.data))))
    content

/-- Formatted citation of one result triple, as the rewrite inserts it. -/
def fmtOf (r : String × PaperInfo × Option String) : List Char :=
  (r.2.1.to_markdown r.2.2).data

/-- Expansion of one original line under a rewrite with result list `rs`:
the triple whose URL equals the stripped line contributes a blank line
and its citation right after the line; other lines are unchanged. -/
def refExpansion (rs : List (String × PaperInfo × Option String))
    (line : List Char) : List (List Char) :=
  match rs.find? (fun r => stripC line == r.1.data) with
  | some r => [line, [], fmtOf r]
  | none => [line]

end MarkdownProcessor

/-- Test fixture: an oracle where every external lookup fails and every
download faults. -/
def oracleNone : Oracle :=
  ⟨fun _ => none, fun _ => none, fun _ => none, fun _ => .transportError,
   fun p _ => p, fun t => t⟩

/-- Test fixture: a fully resolved paper record. -/
def paperFoo : PaperInfo :=
  ⟨"Foo", ["Jane Doe"], "arXiv", "2023", some "2301.00001", none,
   some "https://arxiv.org/pdf/2301.00001.pdf", some 5⟩

/-- Test fixture: an oracle where the citation-graph service resolves
`paperFoo` but every download faults. -/
def oracleFoo : Oracle :=
  ⟨fun _ => some paperFoo, fun _ => none, fun _ => none,
   fun _ => .transportError, fun p _ => p, fun t => t⟩

/-! ### Lemma part: everything below is theorems about the embedding above. -/

theorem splitLinesC_ne_nil (l : List Char) : splitLinesC l ≠ [] := by
  induction l with
  | nil => simp [splitLinesC]
  | cons c cs ih =>
    simp only [splitLinesC]
    split
    · simp
    · cases h : splitLinesC cs <;> simp

theorem mem_splitLinesC_no_newline (l : List Char) :
    ∀ x ∈ splitLinesC l, '\n' ∉ x := by
  induction l with
  | nil =>
    intro x hx
    simp [splitLinesC] at hx
    simp [hx]
  | cons c cs ih =>
    intro x hx
    simp only [splitLinesC] at hx
    by_cases hc : c = '\n'
    · rw [if_pos hc, List.mem_cons] at hx
      rcases hx with hx | hx
      · simp [hx]
      · exact ih x hx
    · rw [if_neg hc] at hx
      cases hsp : splitLinesC cs with
      | nil => exact absurd hsp (splitLinesC_ne_nil cs)
      | cons hd tl =>
        rw [hsp, List.mem_cons] at hx
        rcases hx with hx | hx
        · subst hx
          intro hmem
          rw [List.mem_cons] at hmem
          rcases hmem with hmem | hmem
          · exact hc hmem.symm
          · exact ih hd (by rw [hsp]; exact List.mem_cons_self hd tl) hmem
        · exact ih x (by rw [hsp]; exact List.mem_cons_of_mem hd hx)

theorem splitLinesC_no_newline (l : List Char) (h : '\n' ∉ l) :
    splitLinesC l = [l] := by
  induction l with
  | nil => rfl
  | cons c cs ih =>
    have hc : c ≠ '\n' := fun hc => h (hc ▸ List.mem_cons_self c cs)
    have hcs : '\n' ∉ cs := fun hm => h (List.mem_cons_of_mem c hm)
    simp only [splitLinesC, if_neg hc, ih hcs]

theorem splitLinesC_append_newline (l t : List Char) (h : '\n' ∉ l) :
    splitLinesC (l ++ '\n' :: t) = l :: splitLinesC t := by
  induction l with
  | nil => simp [splitLinesC]
  | cons c cs ih =>
    have hc : c ≠ '\n' := fun hc => h (hc ▸ List.mem_cons_self c cs)
    have hcs : '\n' ∉ cs := fun hm => h (List.mem_cons_of_mem c hm)
    have harw : splitLinesC ((c :: cs) ++ '\n' :: t)
        = splitLinesC (c :: (cs ++ '\n' :: t)) := rfl
    rw [harw]
    simp only [splitLinesC, if_neg hc]
    rw [ih hcs]

theorem splitLinesC_joinLinesC (ls : List (List Char)) (hne : ls ≠ [])
    (hnl : ∀ x ∈ ls, '\n' ∉ x) : splitLinesC (joinLinesC ls) = ls := by
  induction ls with
  | nil => exact absurd rfl hne
  | cons l ls ih =>
    cases ls with
    | nil =>
      simp only [joinLinesC]
      exact splitLinesC_no_newline l (hnl l (by simp))
    | cons l' ls' =>
      simp only [joinLinesC]
      rw [splitLinesC_append_newline _ _ (hnl l (by simp))]
      rw [ih (by simp) (fun x hx => hnl x (List.mem_cons_of_mem l hx))]

theorem dropWhile_append_of_ne_nil {α : Type} (p : α → Bool) (a b : List α)
    (h : a.dropWhile p ≠ []) :
    (a ++ b).dropWhile p = a.dropWhile p ++ b := by
  induction a with
  | nil => exact absurd rfl h
  | cons x xs ih =>
    by_cases hx : p x = true
    · have h' : xs.dropWhile p ≠ [] := by
        simpa [List.dropWhile, hx] using h
      simp [List.dropWhile, hx, ih h']
    · simp [List.dropWhile, hx]

theorem head?_dropWhile {α : Type} (p : α → Bool) (l : List α) (c : α)
    (h : (l.dropWhile p).head? = some c) : p c = false := by
  induction l with
  | nil => simp [List.dropWhile] at h
  | cons x xs ih =>
    by_cases hx : p x = true
    · exact ih (by simpa [List.dropWhile, hx] using h)
    · simp only [List.dropWhile, hx] at h
      simp only [List.head?] at h
      cases h
      simpa using hx

theorem rstripP_append (p : Char → Bool) (q r : List Char)
    (h : rstripP p r ≠ []) : rstripP p (q ++ r) = q ++ rstripP p r := by
  unfold rstripP at *
  have h' : r.reverse.dropWhile p ≠ [] := by
    intro hnil
    exact h (by rw [hnil]; rfl)
  rw [List.reverse_append, dropWhile_append_of_ne_nil p _ _ h',
    List.reverse_append, List.reverse_reverse]

theorem rstripP_ne_nil (p : Char → Bool) (l : List Char) (c : Char)
    (hc : c ∈ l) (hp : p c = false) : rstripP p l ≠ [] := by
  unfold rstripP
  intro hnil
  have h2 : l.reverse.dropWhile p = [] := by
    have := congrArg List.reverse hnil
    simpa using this
  rw [List.dropWhile_eq_nil_iff] at h2
  have := h2 c (by simpa using hc)
  rw [hp] at this
  exact Bool.false_ne_true this

theorem rstripP_getLast (p : Char → Bool) (l : List Char) (c : Char)
    (h : (rstripP p l).getLast? = some c) : p c = false := by
  unfold rstripP at h
  rw [List.getLast?_reverse] at h
  exact head?_dropWhile p l.reverse c h

theorem string_eq_of_data {a b : String} (h : a.data = b.data) : a = b := by
  cases a
  cases b
  exact congrArg String.mk h

theorem string_data_append (a b : String) : (a ++ b).data = a.data ++ b.data := rfl

theorem string_append_assoc (a b c : String) : a ++ b ++ c = a ++ (b ++ c) := by
  apply string_eq_of_data
  simp only [string_data_append, List.append_assoc]

theorem string_append_empty (a : String) : a ++ "" = a := by
  apply string_eq_of_data
  rw [string_data_append]
  show a.data ++ [] = a.data
  simp

theorem string_empty_append (a : String) : "" ++ a = a := by
  apply string_eq_of_data
  rw [string_data_append]
  show [] ++ a.data = a.data
  simp

theorem to_markdown_eq_spec (p : PaperInfo) (local_pdf_path : Option String) :
    p.to_markdown local_pdf_path = citationSpecFormat p local_pdf_path := by
  unfold PaperInfo.to_markdown citationSpecFormat
  cases local_pdf_path <;> cases harx : p.arxiv_id <;> cases hdoi : p.doi <;>
    cases hc : p.citations <;>
    simp only [joinSep, List.cons_append, List.nil_append, List.append_nil,
      List.map_cons, List.map_nil, string_append_assoc, string_append_empty,
      string_empty_append]

theorem find?_map_overwrite {α : Type} (m : List (String × α)) (k : String) (v : α)
    (h : m.any (fun p => p.1 == k) = true) :
    (m.map (fun p => if p.1 == k then (k, v) else p)).find? (fun p => p.1 == k)
      = some (k, v) := by
  induction m with
  | nil => simp at h
  | cons x m ih =>
    cases hx : (x.1 == k) with
    | true =>
      have hhead : (if (x.1 == k) = true then (k, v) else x) = (k, v) := by
        simp [hx]
      rw [List.map_cons, hhead, List.find?_cons_of_pos _ (by simp)]
    | false =>
      have hhead : (if (x.1 == k) = true then (k, v) else x) = x := by
        simp [hx]
      have h' : m.any (fun p => p.1 == k) = true := by
        simpa [List.any_cons, hx] using h
      rw [List.map_cons, hhead, List.find?_cons_of_neg _ (by simp [hx]), ih h']

theorem find?_append_new {α : Type} (m : List (String × α)) (k : String) (v : α)
    (h : m.any (fun p => p.1 == k) = false) :
    (m ++ [(k, v)]).find? (fun p => p.1 == k) = some (k, v) := by
  rw [List.find?_append]
  have h1 : m.find? (fun p => p.1 == k) = none := by
    rw [List.find?_eq_none]
    intro x hx
    rw [List.any_eq_false] at h
    exact fun hq => h x hx hq
  rw [h1]
  simp [List.find?_cons_of_pos]

theorem find?_map_invariant {α : Type} (f : α → α) (q : α → Bool) (m : List α)
    (h1 : ∀ x, q (f x) = q x) (h2 : ∀ x, q x = true → f x = x) :
    (m.map f).find? q = m.find? q := by
  induction m with
  | nil => rfl
  | cons x m ih =>
    cases hq : q x with
    | true =>
      rw [List.map_cons, List.find?_cons_of_pos _ (by rw [h1 x, hq]),
        List.find?_cons_of_pos _ hq, h2 x hq]
    | false =>
      rw [List.map_cons, List.find?_cons_of_neg _ (by rw [h1 x, hq]; simp),
        List.find?_cons_of_neg _ (by rw [hq]; simp), ih]

theorem any_map_invariant {α : Type} (f : α → α) (q : α → Bool) (m : List α)
    (h1 : ∀ x, q (f x) = q x) : (m.map f).any q = m.any q := by
  induction m with
  | nil => rfl
  | cons x m ih => rw [List.map_cons, List.any_cons, List.any_cons, h1 x, ih]

theorem map_fst_overwrite {α : Type} (m : List (String × α)) (k : String) (v : α) :
    (m.map (fun p => if p.1 == k then (k, v) else p)).map Prod.fst
      = m.map Prod.fst := by
  induction m with
  | nil => rfl
  | cons x m ih =>
    cases hx : (x.1 == k) with
    | true =>
      have hhead : (if (x.1 == k) = true then (k, v) else x) = (k, v) := by
        simp [hx]
      rw [List.map_cons, hhead, List.map_cons, List.map_cons, ih]
      have : x.1 = k := eq_of_beq hx
      rw [this]
    | false =>
      have hhead : (if (x.1 == k) = true then (k, v) else x) = x := by
        simp [hx]
      rw [List.map_cons, hhead, List.map_cons, List.map_cons, ih]

theorem dictMem_dictInsert_self {α : Type} (m : List (String × α)) (k : String)
    (v : α) : dictMem (dictInsert m k v) k = true := by
  unfold dictMem dictInsert
  by_cases h : m.any (fun p => p.1 == k) = true
  · rw [if_pos h]
    rw [List.any_eq_true] at h ⊢
    obtain ⟨x, hx, hq⟩ := h
    exact ⟨(k, v), List.mem_map.mpr ⟨x, hx, by simp [hq]⟩, by simp⟩
  · rw [Bool.not_eq_true] at h
    rw [if_neg (by simp [h]), List.any_append]
    simp

theorem dictMem_dictInsert_ne {α : Type} (m : List (String × α)) (k k' : String)
    (v : α) (hne : k' ≠ k) :
    dictMem (dictInsert m k v) k' = dictMem m k' := by
  have hkk : ((k : String) == k') = false := by
    rw [beq_eq_false_iff_ne]
    exact fun hc => hne hc.symm
  unfold dictMem dictInsert
  by_cases h : m.any (fun p => p.1 == k) = true
  · rw [if_pos h]
    apply any_map_invariant
    intro x
    cases hx : (x.1 == k) with
    | true =>
      have hx1 : x.1 = k := eq_of_beq hx
      simp [hx, hx1, hkk]
    | false => simp [hx]
  · rw [Bool.not_eq_true] at h
    rw [if_neg (by simp [h]), List.any_append]
    simp [hkk]

theorem dictLookup_dictInsert_self {α : Type} (m : List (String × α)) (k : String)
    (v : α) : dictLookup (dictInsert m k v) k = some v := by
  unfold dictLookup dictInsert
  by_cases h : m.any (fun p => p.1 == k) = true
  · rw [if_pos h, find?_map_overwrite m k v h]
    rfl
  · rw [Bool.not_eq_true] at h
    rw [if_neg (by simp [h]), find?_append_new m k v h]
    rfl

theorem dictLookup_dictInsert_ne {α : Type} (m : List (String × α)) (k k' : String)
    (v : α) (hne : k' ≠ k) :
    dictLookup (dictInsert m k v) k' = dictLookup m k' := by
  have hkk : ((k : String) == k') = false := by
    rw [beq_eq_false_iff_ne]
    exact fun hc => hne hc.symm
  unfold dictLookup dictInsert
  by_cases h : m.any (fun p => p.1 == k) = true
  · rw [if_pos h]
    congr 1
    apply find?_map_invariant
    · intro x
      cases hx : (x.1 == k) with
      | true =>
        have hx1 : x.1 = k := eq_of_beq hx
        simp [hx, hx1, hkk]
      | false => simp [hx]
    · intro x hq
      have hx : (x.1 == k) = false := by
        rw [beq_eq_false_iff_ne]
        intro hc
        exact hne ((eq_of_beq hq) ▸ hc ▸ rfl)
      simp [hx]
  · rw [Bool.not_eq_true] at h
    rw [if_neg (by simp [h]), List.find?_append]
    have h2 : List.find? (fun p => p.1 == k') [(k, v)] = none := by
      simp [hkk]
    rw [h2]
    cases hf : m.find? (fun p => p.1 == k') <;> rfl

theorem keys_dictInsert_of_mem {α : Type} (m : List (String × α)) (k : String)
    (v : α) (h : dictMem m k = true) :
    (dictInsert m k v).map Prod.fst = m.map Prod.fst := by
  unfold dictMem at h
  unfold dictInsert
  rw [if_pos h]
  exact map_fst_overwrite m k v

/-- C1 (amended): calling `mark_url_processed` again for an
already-recorded URL keeps `is_url_processed` true and creates no
duplicate entry (the dict's key sequence is unchanged), and entries of
other URLs are untouched — but it is not a no-op: the second call
overwrites the stored entry's timestamp and snapshot with the new call's
values. (The idempotent skip lives in the caller, which checks
`is_url_processed` before calling.) -/
theorem c1_mark_url_processed_again (m : List (String × Entry)) (url : String)
    (s1 s2 : Snapshot) (t1 t2 : Nat) :
    StateManager.is_url_processed
        (StateManager.mark_url_processed
          (StateManager.mark_url_processed m url s1 t1) url s2 t2) url = true
    ∧ (StateManager.mark_url_processed
          (StateManager.mark_url_processed m url s1 t1) url s2 t2).map Prod.fst
        = (StateManager.mark_url_processed m url s1 t1).map Prod.fst
    ∧ dictLookup (StateManager.mark_url_processed
          (StateManager.mark_url_processed m url s1 t1) url s2 t2) url
        = some ⟨t2, s2⟩
    ∧ ∀ k, k ≠ url →
        dictLookup (StateManager.mark_url_processed
          (StateManager.mark_url_processed m url s1 t1) url s2 t2) k
        = dictLookup (StateManager.mark_url_processed m url s1 t1) k := by
  unfold StateManager.is_url_processed StateManager.mark_url_processed
  refine ⟨?_, ?_, ?_, ?_⟩
  · exact dictMem_dictInsert_self _ url (Entry.mk t2 s2)
  · exact keys_dictInsert_of_mem _ url (Entry.mk t2 s2)
      (dictMem_dictInsert_self m url (Entry.mk t1 s1))
  · exact dictLookup_dictInsert_self _ url (Entry.mk t2 s2)
  · exact fun k hk => dictLookup_dictInsert_ne _ url k (Entry.mk t2 s2) hk

/-- C1 witness: the amended statement evaluated at a concrete state. -/
theorem c1_mark_url_processed_again_witness :
    StateManager.is_url_processed
        (StateManager.mark_url_processed
          (StateManager.mark_url_processed [] "u" (.doiSnap "d") 0) "u"
          (.doiSnap "d") 1) "u" = true
    ∧ ("x" : String) ≠ "u" := by
  refine ⟨(c1_mark_url_processed_again [] "u" (.doiSnap "d") (.doiSnap "d") 0 1).1, ?_⟩
  decide

/-- C1 counterexample: the second call with the same URL is not a no-op —
with clock readings 0 then 1 the stored `processed_at` becomes 1, i.e.
the first call's timestamp is overwritten. -/
theorem c1_counterexample :
    StateManager.mark_url_processed
        (StateManager.mark_url_processed [] "u" (.doiSnap "d") 0) "u" (.doiSnap "d") 1
      ≠ StateManager.mark_url_processed [] "u" (.doiSnap "d") 0
    ∧ dictLookup (StateManager.mark_url_processed
        (StateManager.mark_url_processed [] "u" (.doiSnap "d") 0) "u"
        (.doiSnap "d") 1) "u" = some ⟨1, .doiSnap "d"⟩ := by
  constructor
  · decide
  · decide

/-- C2 (amended): a request whose every attempt raises a transport-level
fault (timeout, connection error) is retried twice — three attempts in
total — with a flat 2-second backoff before each retry, before the call
as a whole is treated as failed. -/
theorem c2_transport_fault_retry {α : Type} (responses : Nat → HttpAttempt α)
    (h : ∀ n, responses n = .exn) :
    request_with_retry responses 3 = ⟨none, [2, 2], 3⟩ := by
  simp [request_with_retry, retryAux, h]

/-- C2 witness: the amended statement at a concrete always-failing
transport. -/
theorem c2_transport_fault_retry_witness :
    request_with_retry (fun _ => (.exn : HttpAttempt Nat)) 3 = ⟨none, [2, 2], 3⟩ :=
  c2_transport_fault_retry (fun _ => .exn) (fun _ => rfl)

/-- C2 counterexample: under a persistent transport fault the loop makes
three attempts, contradicting the claimed "no more than two attempts in
total". -/
theorem c2_counterexample :
    ¬ ((request_with_retry (fun _ => (.exn : HttpAttempt Nat)) 3).attempts ≤ 2) := by
  decide

/-- C4: evaluation of the embedded `extract_arxiv_id` at the failing
input. The old-style identifier `solv-int/9901001` is matched, and the
version-stripping step `arxiv_id.split('v')[0]` cuts at the first `v` of
the category, returning `"sol"` instead of the identifier (which carries
no version suffix at all). -/
theorem c4_split_at_first_v :
    URLParser.extract_arxiv_id "https://arxiv.org/abs/solv-int/9901001"
      = some "sol" := by
  decide

/-- C5: a citation-graph request that is rate-limited (429) on the first
two attempts and succeeds (200) on the third returns the successful
body, having slept exactly 3 seconds after the first 429 and 6 seconds
after the second — three attempts, no other sleeps. -/
theorem c5_rate_limit_backoff {α : Type} (b0 b1 d : α) :
    request_with_retry
      (fun n => if n = 0 then .resp 429 b0 else if n = 1 then .resp 429 b1
                else .resp 200 d) 3
      = ⟨some d, [3, 6], 3⟩ := rfl

/-- C7: for every PaperRecord the formatted citation `to_markdown`
consists of the title/authors/venue/year part followed by
space-separated, individually parenthesized link fragments in the fixed
order (PDF), (arXiv), (DOI) — each included exactly when the
corresponding datum exists — and ends with a trailing `(Citations: N)`
when the count is present (also for `N = 0`) or `(Citations: N/A)` when
absent, as expressed by `citationSpecFormat`. -/
theorem c7_to_markdown_format (p : PaperInfo) (local_pdf_path : Option String) :
    p.to_markdown local_pdf_path = citationSpecFormat p local_pdf_path :=
  to_markdown_eq_spec p local_pdf_path

theorem mark_preserves_processed {α : Type} (m : List (String × α)) (k x : String)
    (v : α) (h : dictMem m x = true) : dictMem (dictInsert m k v) x = true := by
  by_cases hxk : x = k
  · subst hxk
    exact dictMem_dictInsert_self m x v
  · rw [dictMem_dictInsert_ne m k x v hxk]
    exact h

namespace MarkdownProcessor

theorem stateOf_prepend (r : RunResult) (x : String × PaperInfo × Option String) :
    stateOf (match r with
      | .ok rs stF => .ok (x :: rs) stF
      | .err stF => .err stF) = stateOf r := by
  cases r <;> rfl

theorem processed_mono (o : Oracle) (d f : String) :
    ∀ (urls : List String) (st : RunState) (x : String),
      StateManager.is_url_processed st.processed x = true →
      StateManager.is_url_processed
        (stateOf (processFileLoop o d f urls st)).processed x = true := by
  intro urls
  induction urls with
  | nil =>
    intro st x h
    exact h
  | cons url rest ih =>
    intro st x h
    by_cases h1 : StateManager.is_url_processed st.processed url = true
    · simp only [processFileLoop, h1, if_true]
      exact ih st x h
    · rw [Bool.not_eq_true] at h1
      simp only [processFileLoop, h1, Bool.false_eq_true, if_false]
      cases hex : URLParser.extract_arxiv_id url with
      | some aid =>
        cases hpa : process_arxiv o aid with
        | some info =>
          cases hgf : PDFDownloader.generate_filename info with
          | none =>
            simp only [hex, hpa, hgf]
            exact h
          | some fname =>
            simp only [hex, hpa, hgf]
            rw [stateOf_prepend]
            apply ih
            exact mark_preserves_processed st.processed url x _ h
        | none =>
          simp only [hex, hpa]
          exact ih st x h
      | none =>
        cases hdoi : URLParser.extract_doi url with
        | some doi =>
          simp only [hex, hdoi]
          apply ih
          exact mark_preserves_processed st.processed url x _ h
        | none =>
          simp only [hex, hdoi]
          exact ih st x h

theorem results_have_arxiv (o : Oracle) (d f : String) :
    ∀ (urls : List String) (st : RunState) (r : String × PaperInfo × Option String),
      r ∈ resultsOf (processFileLoop o d f urls st) →
      (URLParser.extract_arxiv_id r.1).isSome = true := by
  intro urls
  induction urls with
  | nil =>
    intro st r hr
    simp [processFileLoop, resultsOf] at hr
  | cons url rest ih =>
    intro st r hr
    by_cases h1 : StateManager.is_url_processed st.processed url = true
    · simp only [processFileLoop, h1, if_true] at hr
      exact ih st r hr
    · rw [Bool.not_eq_true] at h1
      simp only [processFileLoop, h1, Bool.false_eq_true, if_false] at hr
      cases hex : URLParser.extract_arxiv_id url with
      | some aid =>
        cases hpa : process_arxiv o aid with
        | some info =>
          cases hgf : PDFDownloader.generate_filename info with
          | none =>
            simp only [hex, hpa, hgf] at hr
            simp [resultsOf] at hr
          | some fname =>
            simp only [hex, hpa, hgf] at hr
            cases hrec : processFileLoop o d f rest
                ⟨StateManager.mark_url_processed st.processed url
                  (.arxivSnap info.title aid) (o.now st.tick), st.tick + 1⟩ with
            | ok rs stF =>
              rw [hrec] at hr
              simp only [resultsOf, List.mem_cons] at hr
              rcases hr with hr | hr
              · subst hr
                simp [hex]
              · exact ih _ r (by rw [hrec]; exact hr)
            | err stF =>
              rw [hrec] at hr
              simp [resultsOf] at hr
        | none =>
          simp only [hex, hpa] at hr
          exact ih st r hr
      | none =>
        cases hdoi : URLParser.extract_doi url with
        | some doi =>
          simp only [hex, hdoi] at hr
          exact ih _ r hr
        | none =>
          simp only [hex, hdoi] at hr
          exact ih st r hr

theorem failed_url_never_marked (o : Oracle) (d f u a : String)
    (hexu : URLParser.extract_arxiv_id u = some a)
    (hpau : process_arxiv o a = none) :
    ∀ (urls : List String) (st : RunState),
      StateManager.is_url_processed st.processed u = false →
      StateManager.is_url_processed
        (stateOf (processFileLoop o d f urls st)).processed u = false := by
  intro urls
  induction urls with
  | nil =>
    intro st h
    exact h
  | cons url rest ih =>
    intro st h
    by_cases h1 : StateManager.is_url_processed st.processed url = true
    · simp only [processFileLoop, h1, if_true]
      exact ih st h
    · rw [Bool.not_eq_true] at h1
      simp only [processFileLoop, h1, Bool.false_eq_true, if_false]
      by_cases hu : url = u
      · subst hu
        simp only [hexu, hpau]
        exact ih st h
      · have hne : u ≠ url := fun hc => hu hc.symm
        cases hex : URLParser.extract_arxiv_id url with
        | some aid =>
          cases hpa : process_arxiv o aid with
          | some info =>
            cases hgf : PDFDownloader.generate_filename info with
            | none =>
              simp only [hex, hpa, hgf]
              exact h
            | some fname =>
              simp only [hex, hpa, hgf]
              rw [stateOf_prepend]
              apply ih
              show dictMem (dictInsert _ _ _) u = false
              rw [dictMem_dictInsert_ne _ url u _ hne]
              exact h
          | none =>
            simp only [hex, hpa]
            exact ih st h
        | none =>
          cases hdoi : URLParser.extract_doi url with
          | some doi =>
            simp only [hex, hdoi]
            apply ih
            show dictMem (dictInsert _ _ _) u = false
            rw [dictMem_dictInsert_ne _ url u _ hne]
            exact h
          | none =>
            simp only [hex, hdoi]
            exact ih st h

end MarkdownProcessor

/-- C6: a URL whose arXiv resolution fails — the primary citation-graph
lookup and the arXiv fallback both return no record — is skipped without
being marked processed: processing the note continues exactly as if the
loop had started at the remaining URLs, and `is_url_processed` for that
URL is still false after any run that starts with it unprocessed, so a
future scan retries it; the failure never aborts the batch. -/
theorem c6_resolution_failure_skips (o : Oracle) (pdf_dir filepath u a : String)
    (rest : List String) (st : MarkdownProcessor.RunState)
    (hprimary : o.ssFull a = none) (hfallback : o.arxivApi a = none)
    (hexu : URLParser.extract_arxiv_id u = some a)
    (hnp : StateManager.is_url_processed st.processed u = false) :
    MarkdownProcessor.processFileLoop o pdf_dir filepath (u :: rest) st
      = MarkdownProcessor.processFileLoop o pdf_dir filepath rest st
    ∧ ∀ (urls : List String) (st2 : MarkdownProcessor.RunState),
        StateManager.is_url_processed st2.processed u = false →
        StateManager.is_url_processed
          (MarkdownProcessor.stateOf
            (MarkdownProcessor.processFileLoop o pdf_dir filepath urls st2)).processed
          u = false := by
  have hpau : MarkdownProcessor.process_arxiv o a = none := by
    unfold MarkdownProcessor.process_arxiv
    rw [hprimary, hfallback]
  constructor
  · simp only [MarkdownProcessor.processFileLoop, hnp, Bool.false_eq_true, if_false,
      hexu, hpau]
  · exact MarkdownProcessor.failed_url_never_marked o pdf_dir filepath u a hexu hpau

/-- C6 witness: a concrete run on a note holding one arXiv link with an
all-failing oracle. -/
theorem c6_resolution_failure_skips_witness :
    MarkdownProcessor.processFileLoop oracleNone "pdfs" "n.md"
        ["https://arxiv.org/abs/2301.00001"] ⟨[], 0⟩
      = MarkdownProcessor.processFileLoop oracleNone "pdfs" "n.md" [] ⟨[], 0⟩ :=
  (c6_resolution_failure_skips oracleNone "pdfs" "n.md"
    "https://arxiv.org/abs/2301.00001" "2301.00001" [] ⟨[], 0⟩
    rfl rfl (by decide) rfl).1

/-- C9: `PDFDownloader.download` returns `false` (never raises) on every
transport or HTTP status error, and in that case the pipeline still
appends the paper's result triple with the local PDF path absent (`none`)
and marks the link processed. -/
theorem c9_download_failure (o : Oracle) (pdf_dir filepath u a fname : String)
    (info : PaperInfo) (rest : List String) (st : MarkdownProcessor.RunState)
    (hexu : URLParser.extract_arxiv_id u = some a)
    (hpa : MarkdownProcessor.process_arxiv o a = some info)
    (hgf : PDFDownloader.generate_filename info = some fname)
    (hdl : o.downloadOutcome info.pdf_url ≠ .ok)
    (hnp : StateManager.is_url_processed st.processed u = false) :
    (∀ e : DlOutcome, e ≠ .ok → PDFDownloader.download e = false)
    ∧ StateManager.is_url_processed
        (MarkdownProcessor.stateOf
          (MarkdownProcessor.processFileLoop o pdf_dir filepath (u :: rest) st)).processed
        u = true
    ∧ ∀ rs stF,
        MarkdownProcessor.processFileLoop o pdf_dir filepath (u :: rest) st
          = .ok rs stF →
        ∃ rs2, rs = (u, info, none) :: rs2 := by
  have hdlf : PDFDownloader.download (o.downloadOutcome info.pdf_url) = false := by
    cases houtcome : o.downloadOutcome info.pdf_url with
    | ok => exact absurd houtcome hdl
    | httpError code => rfl
    | transportError => rfl
  have hstep : MarkdownProcessor.processFileLoop o pdf_dir filepath (u :: rest) st
      = match MarkdownProcessor.processFileLoop o pdf_dir filepath rest
          ⟨StateManager.mark_url_processed st.processed u
            (.arxivSnap info.title a) (o.now st.tick), st.tick + 1⟩ with
        | .ok rs stF => .ok ((u, info, none) :: rs) stF
        | .err stF => .err stF := by
    simp only [MarkdownProcessor.processFileLoop, hnp, Bool.false_eq_true, if_false,
      hexu, hpa, hgf, hdlf, if_false]
  refine ⟨?_, ?_, ?_⟩
  · intro e he
    cases e with
    | ok => exact absurd rfl he
    | httpError code => rfl
    | transportError => rfl
  · rw [hstep, MarkdownProcessor.stateOf_prepend]
    apply MarkdownProcessor.processed_mono
    exact dictMem_dictInsert_self st.processed u _
  · intro rs stF heq
    rw [hstep] at heq
    cases hrec : MarkdownProcessor.processFileLoop o pdf_dir filepath rest
        ⟨StateManager.mark_url_processed st.processed u
          (.arxivSnap info.title a) (o.now st.tick), st.tick + 1⟩ with
    | ok rs2 stF2 =>
      rw [hrec] at heq
      injection heq with h1 h2
      exact ⟨rs2, h1.symm⟩
    | err stF2 =>
      rw [hrec] at heq
      cases heq

/-- C9 witness: a concrete run where the metadata resolves but the
download faults — the URL ends up marked processed. -/
theorem c9_download_failure_witness :
    StateManager.is_url_processed
      (MarkdownProcessor.stateOf
        (MarkdownProcessor.processFileLoop oracleFoo "pdfs" "n.md"
          ["https://arxiv.org/abs/2301.00001"] ⟨[], 0⟩)).processed
      "https://arxiv.org/abs/2301.00001" = true :=
  (c9_download_failure oracleFoo "pdfs" "n.md" "https://arxiv.org/abs/2301.00001"
    "2301.00001" "Doe_2023_Foo.pdf" paperFoo [] ⟨[], 0⟩
    (by decide) rfl (by decide) (by decide) rfl).2.1

/-- C10: a URL from which a DOI but no arXiv identifier is extracted is
marked processed with a DOI-only snapshot, and it is excluded from the
returned results (so no citation line is appended for it, and a future
scan skips it). -/
theorem c10_doi_only_marked (o : Oracle) (pdf_dir filepath u d : String)
    (rest : List String) (st : MarkdownProcessor.RunState)
    (hexu : URLParser.extract_arxiv_id u = none)
    (hdoi : URLParser.extract_doi u = some d)
    (hnp : StateManager.is_url_processed st.processed u = false) :
    MarkdownProcessor.processFileLoop o pdf_dir filepath (u :: rest) st
      = MarkdownProcessor.processFileLoop o pdf_dir filepath rest
          ⟨StateManager.mark_url_processed st.processed u (.doiSnap d)
            (o.now st.tick), st.tick + 1⟩
    ∧ StateManager.is_url_processed
        (MarkdownProcessor.stateOf
          (MarkdownProcessor.processFileLoop o pdf_dir filepath (u :: rest) st)).processed
        u = true
    ∧ ∀ r ∈ MarkdownProcessor.resultsOf
          (MarkdownProcessor.processFileLoop o pdf_dir filepath (u :: rest) st),
        r.1 ≠ u := by
  have hstep : MarkdownProcessor.processFileLoop o pdf_dir filepath (u :: rest) st
      = MarkdownProcessor.processFileLoop o pdf_dir filepath rest
          ⟨StateManager.mark_url_processed st.processed u (.doiSnap d)
            (o.now st.tick), st.tick + 1⟩ := by
    simp only [MarkdownProcessor.processFileLoop, hnp, Bool.false_eq_true, if_false,
      hexu, hdoi]
  refine ⟨hstep, ?_, ?_⟩
  · rw [hstep]
    apply MarkdownProcessor.processed_mono
    exact dictMem_dictInsert_self st.processed u _
  · intro r hr hru
    have hsome := MarkdownProcessor.results_have_arxiv o pdf_dir filepath
      (u :: rest) st r hr
    rw [hru, hexu] at hsome
    cases hsome

namespace MarkdownProcessor

theorem insertRefsC_eq (url fmt : List Char) (ls : List (List Char)) :
    insertRefsC url fmt ls
      = ls.flatMap (fun l => if stripC l = url then [l, [], fmt] else [l]) := by
  induction ls with
  | nil => rfl
  | cons l ls ih =>
    by_cases h : stripC l = url
    · simp only [insertRefsC, if_pos h, List.flatMap_cons, ih]
      rfl
    · simp only [insertRefsC, if_neg h, List.flatMap_cons, ih]
      rfl

theorem insertRefsC_no_newline (url fmt : List Char) (hfmt : '\n' ∉ fmt)
    (ls : List (List Char)) (h : ∀ x ∈ ls, '\n' ∉ x) :
    ∀ x ∈ insertRefsC url fmt ls, '\n' ∉ x := by
  induction ls with
  | nil =>
    intro x hx
    simp [insertRefsC] at hx
  | cons l ls ih =>
    intro x hx
    have hl := h l (List.mem_cons_self l ls)
    have hls : ∀ y ∈ ls, '\n' ∉ y := fun y hy => h y (List.mem_cons_of_mem l hy)
    by_cases hc : stripC l = url
    · simp only [insertRefsC, if_pos hc, List.mem_cons] at hx
      rcases hx with hx | hx | hx | hx
      · exact hx ▸ hl
      · simp [hx]
      · exact hx ▸ hfmt
      · exact ih hls x hx
    · simp only [insertRefsC, if_neg hc, List.mem_cons] at hx
      rcases hx with hx | hx
      · exact hx ▸ hl
      · exact ih hls x hx

theorem insertRefsC_ne_nil (url fmt : List Char) (ls : List (List Char))
    (h : ls ≠ []) : insertRefsC url fmt ls ≠ [] := by
  cases ls with
  | nil => exact absurd rfl h
  | cons l ls =>
    simp only [insertRefsC]
    by_cases hc : stripC l = url
    · rw [if_pos hc]
      simp
    · rw [if_neg hc]
      simp

theorem update_refs_expansion (rs : List (String × PaperInfo × Option String))
    (hdist : rs.Pairwise (fun a b => a.1 ≠ b.1))
    (hne : ∀ r ∈ rs, r.1 ≠ "")
    (hnl : ∀ r ∈ rs, '\n' ∉ fmtOf r)
    (hcross : ∀ r r2, r ∈ rs → r2 ∈ rs → stripC (fmtOf r) ≠ r2.1.data) :
    ∀ content : String,
      splitLinesC (update_file_with_formatted_refs content rs).data
        = (splitLinesC content.data).flatMap (refExpansion rs) := by
  induction rs with
  | nil =>
    intro content
    have h1 : update_file_with_formatted_refs content [] = content := rfl
    have h2 : refExpansion [] = fun line => [line] := by
      funext line
      rfl
    rw [h1, h2, List.flatMap_singleton']
  | cons r rs ih =>
    intro content
    have hstep : update_file_with_formatted_refs content (r :: rs)
        = update_file_with_formatted_refs
            (String.mk (joinLinesC (insertRefsC r.1.data (fmtOf r)
              (splitLinesC content.data)))) rs := rfl
    have hhead := (List.pairwise_cons.mp hdist).1
    have hdist' := (List.pairwise_cons.mp hdist).2
    have hne' : ∀ x ∈ rs, x.1 ≠ "" := fun x hx => hne x (List.mem_cons_of_mem r hx)
    have hnl' : ∀ x ∈ rs, '\n' ∉ fmtOf x :=
      fun x hx => hnl x (List.mem_cons_of_mem r hx)
    have hcross' : ∀ x x2, x ∈ rs → x2 ∈ rs → stripC (fmtOf x) ≠ x2.1.data :=
      fun x x2 hx hx2 =>
        hcross x x2 (List.mem_cons_of_mem r hx) (List.mem_cons_of_mem r hx2)
    rw [hstep, ih hdist' hne' hnl' hcross']
    have hL : splitLinesC (String.mk (joinLinesC (insertRefsC r.1.data (fmtOf r)
        (splitLinesC content.data)))).data
        = insertRefsC r.1.data (fmtOf r) (splitLinesC content.data) := by
      show splitLinesC (joinLinesC _) = _
      apply splitLinesC_joinLinesC
      · exact insertRefsC_ne_nil _ _ _ (splitLinesC_ne_nil content.data)
      · exact insertRefsC_no_newline _ _ (hnl r (List.mem_cons_self r rs)) _
          (mem_splitLinesC_no_newline content.data)
    rw [hL, insertRefsC_eq, List.flatMap_assoc]
    congr 1
    funext l
    by_cases hc : stripC l = r.1.data
    · rw [if_pos hc]
      have e1 : refExpansion rs l = [l] := by
        unfold refExpansion
        have hf : rs.find? (fun x => stripC l == x.1.data) = none := by
          rw [List.find?_eq_none]
          intro x hx hbeq
          have hdata : stripC l = x.1.data := eq_of_beq hbeq
          have hx1 : r.1.data = x.1.data := by rw [← hc, hdata]
          exact (hhead x hx) (string_eq_of_data hx1)
        rw [hf]
      have e2 : refExpansion rs [] = [[]] := by
        unfold refExpansion
        have hf : rs.find? (fun x => stripC [] == x.1.data) = none := by
          rw [List.find?_eq_none]
          intro x hx hbeq
          have h0 : x.1.data = ([] : List Char) := (eq_of_beq hbeq).symm
          exact hne' x hx (string_eq_of_data h0)
        rw [hf]
      have e3 : refExpansion rs (fmtOf r) = [fmtOf r] := by
        unfold refExpansion
        have hf : rs.find? (fun x => stripC (fmtOf r) == x.1.data) = none := by
          rw [List.find?_eq_none]
          intro x hx hbeq
          exact hcross r x (List.mem_cons_self r rs) (List.mem_cons_of_mem r hx)
            (eq_of_beq hbeq)
        rw [hf]
      have e4 : refExpansion (r :: rs) l = [l, [], fmtOf r] := by
        unfold refExpansion
        rw [List.find?_cons_of_pos _ (by simp [hc])]
      rw [e4]
      simp only [List.flatMap_cons, List.flatMap_nil, e1, e2, e3, List.append_nil]
      rfl
    · rw [if_neg hc]
      have e4 : refExpansion (r :: rs) l = refExpansion rs l := by
        unfold refExpansion
        rw [List.find?_cons_of_neg _ (by simpa using hc)]
      rw [e4]
      simp only [List.flatMap_cons, List.flatMap_nil, List.append_nil]

theorem flatMap_refExpansion_length (rs : List (String × PaperInfo × Option String))
    (ls : List (List Char)) :
    (ls.flatMap (refExpansion rs)).length
      = ls.length + 2 * ls.countP (fun l => rs.any (fun r => stripC l == r.1.data)) := by
  induction ls with
  | nil => rfl
  | cons l ls ih =>
    rw [List.flatMap_cons, List.length_append, ih, List.countP_cons]
    unfold refExpansion
    cases hf : rs.find? (fun r => stripC l == r.1.data) with
    | some r =>
      have hp := List.find?_some hf
      have hany : rs.any (fun r => stripC l == r.1.data) = true := by
        rw [List.any_eq_true]
        exact ⟨r, List.mem_of_find?_eq_some hf, hp⟩
      simp [hany]
      omega
    | none =>
      have hany : rs.any (fun r => stripC l == r.1.data) = false := by
        rw [List.any_eq_false]
        rw [List.find?_eq_none] at hf
        exact hf
      simp [hany]
      omega

end MarkdownProcessor

/-- C3 (amended): for every note text and every list of result triples
whose URLs are pairwise distinct and nonempty, whose formatted citations
contain no newline, and whose formatted citations do not strip to any
triple's URL, the rewrite expands every line whose stripped content
equals a triple's URL into the line, a blank line and exactly that one
formatted citation, copies every other line byte-identically (the
`refExpansion` characterization), increases the line count by exactly 2
per matching line, and with an empty triple list returns the text
unchanged. (With duplicate triples for the same URL, one blank+citation
pair is inserted per duplicate, so the claim as frozen fails — see the
counterexample.) -/
theorem c3_rewrite_roundtrip (content : String)
    (rs : List (String × PaperInfo × Option String))
    (hdist : rs.Pairwise (fun a b => a.1 ≠ b.1))
    (hne : ∀ r ∈ rs, r.1 ≠ "")
    (hnl : ∀ r ∈ rs, '\n' ∉ MarkdownProcessor.fmtOf r)
    (hcross : ∀ r r2, r ∈ rs → r2 ∈ rs →
      stripC (MarkdownProcessor.fmtOf r) ≠ r2.1.data) :
    splitLinesC (MarkdownProcessor.update_file_with_formatted_refs content rs).data
      = (splitLinesC content.data).flatMap (MarkdownProcessor.refExpansion rs)
    ∧ (splitLinesC
        (MarkdownProcessor.update_file_with_formatted_refs content rs).data).length
      = (splitLinesC content.data).length
        + 2 * (splitLinesC content.data).countP
            (fun l => rs.any (fun r => stripC l == r.1.data))
    ∧ MarkdownProcessor.update_file_with_formatted_refs content [] = content := by
  have h1 := MarkdownProcessor.update_refs_expansion rs hdist hne hnl hcross content
  refine ⟨h1, ?_, rfl⟩
  rw [h1, MarkdownProcessor.flatMap_refExpansion_length]

/-- C3 witness: a three-line note with one matching line and one triple;
the rewrite grows the note from 3 to 5 lines. -/
theorem c3_rewrite_roundtrip_witness :
    (splitLinesC (MarkdownProcessor.update_file_with_formatted_refs "x\nhttp://a\ny"
        [("http://a", paperFoo, none)]).data).length
      = (splitLinesC ("x\nhttp://a\ny" : String).data).length
        + 2 * (splitLinesC ("x\nhttp://a\ny" : String).data).countP
            (fun l => [("http://a", paperFoo, (none : Option String))].any
              (fun r => stripC l == r.1.data)) :=
  (c3_rewrite_roundtrip "x\nhttp://a\ny" [("http://a", paperFoo, none)]
    (by simp) (by decide) (by decide)
    (by
      intro r r2 hr hr2
      rw [List.mem_singleton] at hr hr2
      subst hr
      subst hr2
      decide)).2.1

/-- C3 counterexample: with two triples for the same URL the rewrite
inserts one blank+citation pair per triple after the single matching
line, so the note grows from 1 line to 5 lines — not by 2 per matching
occurrence (1 matching line would give 3). -/
theorem c3_counterexample :
    (splitLinesC (MarkdownProcessor.update_file_with_formatted_refs "http://a"
        [("http://a", paperFoo, none), ("http://a", paperFoo, none)]).data).length = 5
    ∧ (splitLinesC ("http://a" : String).data).length = 1
    ∧ (splitLinesC ("http://a" : String).data).countP
        (fun l => [("http://a", paperFoo, (none : Option String)),
                   ("http://a", paperFoo, none)].any
          (fun r => stripC l == r.1.data)) = 1
    ∧ (5 : Nat) ≠ 1 + 2 * 1 := by
  refine ⟨by decide, by decide, by decide, by decide⟩

/-- C10 witness: a concrete run on a note holding one DOI link. -/
theorem c10_doi_only_marked_witness :
    StateManager.is_url_processed
      (MarkdownProcessor.stateOf
        (MarkdownProcessor.processFileLoop oracleNone "pdfs" "n.md"
          ["https://doi.org/10.1234/ab"] ⟨[], 0⟩)).processed
      "https://doi.org/10.1234/ab" = true :=
  (c10_doi_only_marked oracleNone "pdfs" "n.md" "https://doi.org/10.1234/ab"
    "10.1234/ab" [] ⟨[], 0⟩ (by decide) (by decide) rfl).2.1

theorem litMatchCS_split (pat : List Char) :
    ∀ (s r : List Char), litMatchCS pat s = some r → s = pat ++ r := by
  induction pat with
  | nil =>
    intro s r h
    simp only [litMatchCS] at h
    cases h
    rfl
  | cons p ps ih =>
    intro s r h
    cases s with
    | nil => simp [litMatchCS] at h
    | cons c cs =>
      simp only [litMatchCS] at h
      by_cases hpc : p = c
      · rw [if_pos hpc] at h
        rw [List.cons_append, ← ih cs r h, hpc]
      · rw [if_neg hpc] at h
        cases h

theorem httpTail_split (s t rest : List Char)
    (h : URLParser.httpTail s = some (t, rest)) : s = t ++ rest ∧ '/' ∈ t := by
  unfold URLParser.httpTail at h
  cases hlit : litMatchCS ("://".data) s with
  | none =>
    rw [hlit] at h
    cases h
  | some r1 =>
    rw [hlit] at h
    dsimp only at h
    by_cases hbody : (r1.takeWhile URLParser.urlChar).isEmpty = true
    · rw [if_pos hbody] at h
      cases h
    · rw [if_neg hbody] at h
      rw [Option.some.injEq, Prod.mk.injEq] at h
      obtain ⟨hm, hrest⟩ := h
      have hs : s = ':' :: '/' :: '/' :: r1 := litMatchCS_split _ s r1 hlit
      have hr1 : r1.takeWhile URLParser.urlChar ++ r1.dropWhile URLParser.urlChar
          = r1 := List.takeWhile_append_dropWhile _ _
      constructor
      · rw [hs, ← hm, ← hrest]
        show ':' :: '/' :: '/' :: r1
          = (':' :: '/' :: '/' :: r1.takeWhile URLParser.urlChar)
            ++ r1.dropWhile URLParser.urlChar
        rw [List.cons_append, List.cons_append, List.cons_append, hr1]
      · rw [← hm]
        simp

theorem matchAlt1_split (s m rest : List Char)
    (h : URLParser.matchAlt1 s = some (m, rest)) :
    s = m ++ rest ∧ ∃ r0, m = 'h' :: 't' :: 't' :: 'p' :: r0 ∧ '/' ∈ r0 := by
  unfold URLParser.matchAlt1 at h
  cases hlit : litMatchCS ("http".data) s with
  | none =>
    rw [hlit] at h
    cases h
  | some r1 =>
    rw [hlit] at h
    dsimp only at h
    have hs : s = 'h' :: 't' :: 't' :: 'p' :: r1 := litMatchCS_split _ s r1 hlit
    have hfall : ∀ (r' : List Char),
        s = 'h' :: 't' :: 't' :: 'p' :: r' →
        (URLParser.httpTail r').map
          (fun p => ('h' :: 't' :: 't' :: 'p' :: p.1, p.2)) = some (m, rest) →
        s = m ++ rest ∧ ∃ r0, m = 'h' :: 't' :: 't' :: 'p' :: r0 ∧ '/' ∈ r0 := by
      intro r' hs' h2
      cases hht : URLParser.httpTail r' with
      | none =>
        rw [hht] at h2
        cases h2
      | some p =>
        rw [hht, Option.map_some', Option.some.injEq, Prod.mk.injEq] at h2
        obtain ⟨hm, hrest⟩ := h2
        obtain ⟨hsp, hslash⟩ := httpTail_split r' p.1 p.2 (by rw [hht])
        refine ⟨?_, p.1, hm.symm, hslash⟩
        rw [hs', hsp, ← hm, ← hrest]
        rfl
    split at h
    · rename_i r2
      cases hht2 : URLParser.httpTail r2 with
      | none =>
        rw [hht2] at h
        exact hfall _ hs h
      | some p =>
        rw [hht2, Option.some.injEq, Prod.mk.injEq] at h
        obtain ⟨hm, hrest⟩ := h
        obtain ⟨hsp, hslash⟩ := httpTail_split r2 p.1 p.2 (by rw [hht2])
        refine ⟨?_, 's' :: p.1, hm.symm, List.mem_cons_of_mem 's' hslash⟩
        rw [hs, hsp, ← hm, ← hrest]
        rfl
    · exact hfall _ hs h

theorem matchAlt2_split (s m rest : List Char)
    (h : URLParser.matchAlt2 s = some (m, rest)) :
    s = m ++ rest ∧ ∃ r0, m = 'd' :: 'o' :: 'i' :: ':' :: r0 ∧ '1' ∈ r0 := by
  unfold URLParser.matchAlt2 at h
  cases hlit : litMatchCS ("doi:".data) s with
  | none =>
    rw [hlit] at h
    cases h
  | some r1 =>
    rw [hlit] at h
    dsimp only at h
    have hs : s = 'd' :: 'o' :: 'i' :: ':' :: r1 := litMatchCS_split _ s r1 hlit
    cases hlit2 : litMatchCS ("10.".data) (r1.dropWhile pySpace) with
    | none =>
      rw [hlit2] at h
      cases h
    | some r3 =>
      rw [hlit2] at h
      dsimp only at h
      by_cases hds : (r3.takeWhile Char.isDigit).length < 4
      · rw [if_pos hds] at h
        cases h
      · rw [if_neg hds] at h
        split at h
        · rename_i r5 heq
          by_cases hbody : (r5.takeWhile URLParser.urlChar).isEmpty = true
          · rw [if_pos hbody] at h
            cases h
          · rw [if_neg hbody] at h
            rw [Option.some.injEq, Prod.mk.injEq] at h
            obtain ⟨hm, hrest⟩ := h
            have f5 : r5.takeWhile URLParser.urlChar ++ r5.dropWhile URLParser.urlChar
                = r5 := List.takeWhile_append_dropWhile _ _
            have f3 : r3.takeWhile Char.isDigit ++ r3.dropWhile Char.isDigit = r3 :=
              List.takeWhile_append_dropWhile _ _
            have f2 : r1.dropWhile pySpace = '1' :: '0' :: '.' :: r3 :=
              litMatchCS_split _ _ r3 hlit2
            have f1 : r1.takeWhile pySpace ++ r1.dropWhile pySpace = r1 :=
              List.takeWhile_append_dropWhile _ _
            constructor
            · rw [hs, ← hm, ← hrest]
              simp only [List.cons_append, List.append_assoc]
              rw [f5, ← heq, f3, ← f2, f1]
            · refine ⟨_, hm.symm, ?_⟩
              simp
        · cases h

theorem tryMatchUrl_split (s m rest : List Char)
    (h : URLParser.tryMatchUrl s = some (m, rest)) :
    s = m ++ rest
    ∧ ((∃ r0, m = 'h' :: 't' :: 't' :: 'p' :: r0 ∧ (∃ c ∈ r0, punctSet c = false))
      ∨ (∃ r0, m = 'd' :: 'o' :: 'i' :: ':' :: r0 ∧ (∃ c ∈ r0, punctSet c = false))) := by
  unfold URLParser.tryMatchUrl at h
  cases h1 : URLParser.matchAlt1 s with
  | some p =>
    rw [h1] at h
    cases h
    obtain ⟨hsplit, r0, hm, hslash⟩ := matchAlt1_split s m rest h1
    exact ⟨hsplit, Or.inl ⟨r0, hm, '/', hslash, by decide⟩⟩
  | none =>
    rw [h1] at h
    obtain ⟨hsplit, r0, hm, hone⟩ := matchAlt2_split s m rest h
    exact ⟨hsplit, Or.inr ⟨r0, hm, '1', hone, by decide⟩⟩

theorem tryMatchUrl_ne_nil (s m rest : List Char)
    (h : URLParser.tryMatchUrl s = some (m, rest)) : m ≠ [] := by
  obtain ⟨-, hd⟩ := tryMatchUrl_split s m rest h
  rcases hd with ⟨r0, hm, -⟩ | ⟨r0, hm, -⟩ <;> simp [hm]

theorem drop_len_add {α : Type} (a : List α) :
    ∀ (b : List α) (k : Nat), (a ++ b).drop (a.length + k) = b.drop k := by
  induction a with
  | nil =>
    intro b k
    simp
  | cons x a ih =>
    intro b k
    rw [List.cons_append, List.length_cons]
    rw [Nat.succ_add, List.drop_succ_cons]
    exact ih b k

theorem findAllUrls_pos_rel :
    ∀ (fuel i : Nat) (s : List Char),
      URLParser.findAllUrlsFuel fuel s
        = (URLParser.findAllUrlsPosFuel fuel i s).map Prod.snd := by
  intro fuel
  induction fuel with
  | zero =>
    intro i s
    rfl
  | succ fuel ih =>
    intro i s
    cases h : URLParser.tryMatchUrl s with
    | some p =>
      obtain ⟨m, rest⟩ := p
      simp only [URLParser.findAllUrlsFuel, URLParser.findAllUrlsPosFuel, h,
        List.map_cons]
      rw [ih (i + m.length) rest]
    | none =>
      cases s with
      | nil => simp [URLParser.findAllUrlsFuel, URLParser.findAllUrlsPosFuel, h]
      | cons c t =>
        simp only [URLParser.findAllUrlsFuel, URLParser.findAllUrlsPosFuel, h]
        exact ih (i + 1) t

theorem findAllUrlsPos_ge :
    ∀ (fuel i : Nat) (s : List Char) (p : Nat × List Char),
      p ∈ URLParser.findAllUrlsPosFuel fuel i s → i ≤ p.1 := by
  intro fuel
  induction fuel with
  | zero =>
    intro i s p hp
    simp [URLParser.findAllUrlsPosFuel] at hp
  | succ fuel ih =>
    intro i s p hp
    cases h : URLParser.tryMatchUrl s with
    | some q =>
      obtain ⟨m, rest⟩ := q
      simp only [URLParser.findAllUrlsPosFuel, h, List.mem_cons] at hp
      rcases hp with hp | hp
      · rw [hp]
      · exact Nat.le_trans (Nat.le_add_right i m.length) (ih (i + m.length) rest p hp)
    | none =>
      cases s with
      | nil => simp [URLParser.findAllUrlsPosFuel, h] at hp
      | cons c t =>
        simp only [URLParser.findAllUrlsPosFuel, h] at hp
        exact Nat.le_trans (Nat.le_add_right i 1) (ih (i + 1) t p hp)

theorem findAllUrlsPos_sorted :
    ∀ (fuel i : Nat) (s : List Char),
      (URLParser.findAllUrlsPosFuel fuel i s).Pairwise (fun a b => a.1 < b.1) := by
  intro fuel
  induction fuel with
  | zero =>
    intro i s
    simp [URLParser.findAllUrlsPosFuel]
  | succ fuel ih =>
    intro i s
    cases h : URLParser.tryMatchUrl s with
    | some q =>
      obtain ⟨m, rest⟩ := q
      simp only [URLParser.findAllUrlsPosFuel, h]
      rw [List.pairwise_cons]
      constructor
      · intro p hp
        have hge := findAllUrlsPos_ge fuel (i + m.length) rest p hp
        have hmne : m ≠ [] := tryMatchUrl_ne_nil s m rest h
        have hmlen : 0 < m.length := List.length_pos.mpr hmne
        show i < p.1
        omega
      · exact ih (i + m.length) rest
    | none =>
      cases s with
      | nil => simp [URLParser.findAllUrlsPosFuel, h]
      | cons c t =>
        simp only [URLParser.findAllUrlsPosFuel, h]
        exact ih (i + 1) t

theorem findAllUrlsPos_occurrence :
    ∀ (fuel i : Nat) (s : List Char) (p : Nat × List Char),
      p ∈ URLParser.findAllUrlsPosFuel fuel i s →
      ∃ t, s.drop (p.1 - i) = p.2 ++ t := by
  intro fuel
  induction fuel with
  | zero =>
    intro i s p hp
    simp [URLParser.findAllUrlsPosFuel] at hp
  | succ fuel ih =>
    intro i s p hp
    cases h : URLParser.tryMatchUrl s with
    | some q =>
      obtain ⟨m, rest⟩ := q
      obtain ⟨hsplit, -⟩ := tryMatchUrl_split s m rest h
      simp only [URLParser.findAllUrlsPosFuel, h, List.mem_cons] at hp
      rcases hp with hp | hp
      · refine ⟨rest, ?_⟩
        rw [hp]
        simp [hsplit]
      · obtain ⟨t, ht⟩ := ih (i + m.length) rest p hp
        have hge := findAllUrlsPos_ge fuel (i + m.length) rest p hp
        refine ⟨t, ?_⟩
        rw [hsplit]
        have harith : p.1 - i = m.length + (p.1 - (i + m.length)) := by omega
        rw [harith, drop_len_add]
        exact ht
    | none =>
      cases s with
      | nil => simp [URLParser.findAllUrlsPosFuel, h] at hp
      | cons c t0 =>
        simp only [URLParser.findAllUrlsPosFuel, h] at hp
        obtain ⟨t, ht⟩ := ih (i + 1) t0 p hp
        have hge := findAllUrlsPos_ge fuel (i + 1) t0 p hp
        refine ⟨t, ?_⟩
        have harith : p.1 - i = (p.1 - (i + 1)) + 1 := by omega
        rw [harith, List.drop_succ_cons]
        exact ht

theorem mem_findAllUrls_match :
    ∀ (fuel : Nat) (s m : List Char),
      m ∈ URLParser.findAllUrlsFuel fuel s →
      ∃ s2 rest, URLParser.tryMatchUrl s2 = some (m, rest) := by
  intro fuel
  induction fuel with
  | zero =>
    intro s m hm
    simp [URLParser.findAllUrlsFuel] at hm
  | succ fuel ih =>
    intro s m hm
    cases h : URLParser.tryMatchUrl s with
    | some q =>
      obtain ⟨m2, rest⟩ := q
      simp only [URLParser.findAllUrlsFuel, h, List.mem_cons] at hm
      rcases hm with hm | hm
      · exact ⟨s, rest, hm ▸ h⟩
      · exact ih rest m hm
    | none =>
      cases s with
      | nil => simp [URLParser.findAllUrlsFuel, h] at hm
      | cons c t =>
        simp only [URLParser.findAllUrlsFuel, h] at hm
        exact ih t m hm

/-- C8: `find_urls_in_text` is the position-indexed scan with trailing
`.,;:` stripped from each match (first conjunct); the scan's positions
are strictly increasing, so URLs come in order of first appearance
(second); each matched text occurs verbatim at its position in the input
(third); and every returned string starts with `http` (which covers
`https`) or `doi:` and does not end in a character of `.,;:` (fourth). -/
theorem c8_find_urls_in_text (text : String) :
    (URLParser.find_urls_in_text text
      = (URLParser.findAllUrlsPosFuel text.data.length 0 text.data).map
          (fun p => String.mk (rstripP punctSet p.2)))
    ∧ (URLParser.findAllUrlsPosFuel text.data.length 0 text.data).Pairwise
        (fun a b => a.1 < b.1)
    ∧ (∀ p ∈ URLParser.findAllUrlsPosFuel text.data.length 0 text.data,
        ∃ t, text.data.drop p.1 = p.2 ++ t)
    ∧ ∀ u ∈ URLParser.find_urls_in_text text,
        ((∃ r0, u.data = 'h' :: 't' :: 't' :: 'p' :: r0)
          ∨ (∃ r0, u.data = 'd' :: 'o' :: 'i' :: ':' :: r0))
        ∧ ∀ c, u.data.getLast? = some c → punctSet c = false := by
  have hpart1 : URLParser.find_urls_in_text text
      = (URLParser.findAllUrlsPosFuel text.data.length 0 text.data).map
          (fun p => String.mk (rstripP punctSet p.2)) := by
    unfold URLParser.find_urls_in_text
    rw [findAllUrls_pos_rel text.data.length 0 text.data, List.map_map]
    rfl
  refine ⟨hpart1, findAllUrlsPos_sorted _ 0 _, ?_, ?_⟩
  · intro p hp
    obtain ⟨t, ht⟩ := findAllUrlsPos_occurrence text.data.length 0 text.data p hp
    rw [Nat.sub_zero] at ht
    exact ⟨t, ht⟩
  · intro u hu
    unfold URLParser.find_urls_in_text at hu
    rw [List.mem_map] at hu
    obtain ⟨m, hmmem, hmu⟩ := hu
    obtain ⟨s2, rest, hmatch⟩ :=
      mem_findAllUrls_match text.data.length text.data m hmmem
    obtain ⟨-, hd⟩ := tryMatchUrl_split s2 m rest hmatch
    have hudata : u.data = rstripP punctSet m := by
      rw [← hmu]
    constructor
    · rcases hd with ⟨r0, hm, c, hc, hcp⟩ | ⟨r0, hm, c, hc, hcp⟩
      · left
        refine ⟨rstripP punctSet r0, ?_⟩
        rw [hudata, hm]
        have happ := rstripP_append punctSet ['h', 't', 't', 'p'] r0
          (rstripP_ne_nil punctSet r0 c hc hcp)
        rw [show ('h' :: 't' :: 't' :: 'p' :: r0)
            = ['h', 't', 't', 'p'] ++ r0 from rfl, happ]
        rfl
      · right
        refine ⟨rstripP punctSet r0, ?_⟩
        rw [hudata, hm]
        have happ := rstripP_append punctSet ['d', 'o', 'i', ':'] r0
          (rstripP_ne_nil punctSet r0 c hc hcp)
        rw [show ('d' :: 'o' :: 'i' :: ':' :: r0)
            = ['d', 'o', 'i', ':'] ++ r0 from rfl, happ]
        rfl
    · intro c hc
      rw [hudata] at hc
      exact rstripP_getLast punctSet m c hc

/-- C8 witness: on a concrete note text, the returned URL is a member
and satisfies the prefix property. -/
theorem c8_find_urls_in_text_witness :
    ("https://a.b/c" ∈ URLParser.find_urls_in_text "x https://a.b/c.")
    ∧ ((∃ r0, ("https://a.b/c" : String).data = 'h' :: 't' :: 't' :: 'p' :: r0)
      ∨ (∃ r0, ("https://a.b/c" : String).data = 'd' :: 'o' :: 'i' :: ':' :: r0)) :=
  ⟨by decide,
   ((c8_find_urls_in_text "x https://a.b/c.").2.2.2 "https://a.b/c" (by decide)).1⟩

end PaperWatcher
